import Mathlib

/-!
Verification of the trasher concurrent file-generation pipeline.

Each definition below is a shallow embedding of a function of the Go
repository (package and function named in its doc comment).  Machine
integers (`int64`, `uint8`) are modelled as `Nat`/`Int` with explicit
`% 256` where the Go code converts through `uint8`; byte slices are
`List Nat`; fallible Go functions return `Except String`.
-/

namespace Trasher

/-- A byte is modelled as a natural number (the Go code only ever stores
values below 256 in them). -/
abbrev Byte := Nat

/-! ## Work dispatcher (`internal/worker/pool.go`) -/

/-- `workItem` from `internal/worker/pool.go`: an offset/size pair. -/
structure WorkItem where
  offset : Nat
  size : Nat
deriving DecidableEq, Repr

/-- The loop body of `WorkerPool.distributeWork`: starting at `offset`,
emit items of `chunkSize` bytes (the remainder for the final one) until
`totalSize` is covered.  `fuel` bounds the number of iterations; since
every iteration advances `offset` by at least one byte when
`0 < chunkSize`, a fuel of `totalSize` is always sufficient. -/
def distLoop (chunkSize totalSize : Nat) : Nat → Nat → List WorkItem
  | _, 0 => []
  | offset, fuel + 1 =>
    if offset < totalSize then
      let size := if totalSize - offset < chunkSize then totalSize - offset else chunkSize
      ⟨offset, size⟩ :: distLoop chunkSize totalSize (offset + size) fuel
    else []

/-- `WorkerPool.distributeWork` (`internal/worker/pool.go` lines 128–145),
run to completion with no cancellation: the full list of work items sent
on the work channel. -/
def distributeWork (chunkSize totalSize : Nat) : List WorkItem :=
  distLoop chunkSize totalSize 0 totalSize

/-- `consecutiveFrom items start stop` says the items tile `[start, stop)`
consecutively: each item starts where the previous one ended, every item
is nonempty and stays inside the range, and the tiling ends exactly at
`stop` (an empty list is allowed only once `stop ≤ start`). -/
def consecutiveFrom : List WorkItem → Nat → Nat → Prop
  | [], start, stop => stop ≤ start
  | it :: rest, start, stop =>
      it.offset = start ∧ 0 < it.size ∧ start + it.size ≤ stop ∧
        consecutiveFrom rest (start + it.size) stop

theorem distLoop_eq_nil {chunkSize totalSize offset fuel : Nat}
    (h : totalSize ≤ offset) : distLoop chunkSize totalSize offset fuel = [] := by
  cases fuel with
  | zero => rfl
  | succ n => simp [distLoop, Nat.not_lt.mpr h]

theorem distLoop_consecutive {chunkSize totalSize : Nat} (hc : 0 < chunkSize) :
    ∀ fuel offset, totalSize - offset ≤ fuel →
      consecutiveFrom (distLoop chunkSize totalSize offset fuel) offset totalSize := by
  intro fuel
  induction fuel with
  | zero =>
    intro offset hf
    have : totalSize ≤ offset := by omega
    simpa [distLoop, consecutiveFrom] using this
  | succ n ih =>
    intro offset hf
    by_cases hlt : offset < totalSize
    · have hstep : consecutiveFrom
          (distLoop chunkSize totalSize offset (n + 1)) offset totalSize := by
        simp only [distLoop, if_pos hlt]
        set size := if totalSize - offset < chunkSize then totalSize - offset else chunkSize
          with hsize
        have hpos : 0 < size := by
          rw [hsize]; split <;> omega
        have hle : offset + size ≤ totalSize := by
          rw [hsize]; split <;> omega
        refine ⟨rfl, hpos, hle, ?_⟩
        exact ih (offset + size) (by omega)
      exact hstep
    · rw [distLoop_eq_nil (by omega)]
      simpa [consecutiveFrom] using by omega

theorem consecutiveFrom_offset_bounds {stop : Nat} :
    ∀ {l : List WorkItem} {start : Nat}, consecutiveFrom l start stop →
      ∀ it ∈ l, start ≤ it.offset ∧ it.offset + it.size ≤ stop := by
  intro l
  induction l with
  | nil => intro start _ it hmem; cases hmem
  | cons a rest ih =>
    intro start h it hmem
    obtain ⟨hoff, hpos, hle, hrest⟩ := h
    rcases List.mem_cons.mp hmem with rfl | hmem
    · omega
    · have := ih hrest it hmem
      omega

theorem consecutiveFrom_chain {stop : Nat} :
    ∀ {l : List WorkItem} {start : Nat}, consecutiveFrom l start stop →
      l.Chain' (fun a b => a.offset < b.offset) := by
  intro l
  induction l with
  | nil => intro start _; simp
  | cons a rest ih =>
    intro start h
    obtain ⟨hoff, hpos, hle, hrest⟩ := h
    refine List.chain'_cons'.mpr ⟨?_, ih hrest⟩
    intro b hb
    cases rest with
    | nil => simp at hb
    | cons c cs =>
      simp only [List.head?_cons, Option.mem_def, Option.some.injEq] at hb
      obtain ⟨hcoff, hcpos, hcle, hcrest⟩ := hrest
      subst hb
      omega

theorem consecutiveFrom_pairwise {stop : Nat} :
    ∀ {l : List WorkItem} {start : Nat}, consecutiveFrom l start stop →
      l.Pairwise (fun a b => a.offset + a.size ≤ b.offset) := by
  intro l
  induction l with
  | nil => intro start _; simp
  | cons a rest ih =>
    intro start h
    obtain ⟨hoff, hpos, hle, hrest⟩ := h
    refine List.pairwise_cons.mpr ⟨?_, ih hrest⟩
    intro b hb
    have := consecutiveFrom_offset_bounds hrest b hb
    omega

theorem consecutiveFrom_cover {stop : Nat} :
    ∀ {l : List WorkItem} {start : Nat}, consecutiveFrom l start stop →
      ∀ x, (start ≤ x ∧ x < stop) ↔
        ∃ it ∈ l, it.offset ≤ x ∧ x < it.offset + it.size := by
  intro l
  induction l with
  | nil =>
    intro start h x
    simp only [consecutiveFrom] at h
    constructor
    · intro hx; omega
    · rintro ⟨it, hmem, -⟩; cases hmem
  | cons a rest ih =>
    intro start h x
    obtain ⟨hoff, hpos, hle, hrest⟩ := h
    constructor
    · intro hx
      by_cases hx2 : x < start + a.size
      · exact ⟨a, List.mem_cons_self _ _, by omega⟩
      · obtain ⟨it, hmem, hit⟩ := ((ih hrest x).mp (by omega))
        exact ⟨it, List.mem_cons_of_mem _ hmem, hit⟩
    · rintro ⟨it, hmem, hit⟩
      rcases List.mem_cons.mp hmem with rfl | hmem
      · omega
      · have hb := consecutiveFrom_offset_bounds hrest it hmem
        omega

theorem consecutiveFrom_pos {stop : Nat} :
    ∀ {l : List WorkItem} {start : Nat}, consecutiveFrom l start stop →
      ∀ it ∈ l, 0 < it.size := by
  intro l
  induction l with
  | nil => intro start _ it hmem; cases hmem
  | cons a rest ih =>
    intro start h it hmem
    obtain ⟨hoff, hpos, hle, hrest⟩ := h
    rcases List.mem_cons.mp hmem with rfl | hmem
    · exact hpos
    · exact ih hrest it hmem

theorem distLoop_cons {chunkSize totalSize offset fuel : Nat}
    (hlt : offset < totalSize) (hf : 0 < fuel) :
    distLoop chunkSize totalSize offset fuel =
      (⟨offset, if totalSize - offset < chunkSize then totalSize - offset else chunkSize⟩ :
          WorkItem) ::
        distLoop chunkSize totalSize
          (offset + if totalSize - offset < chunkSize then totalSize - offset else chunkSize)
          (fuel - 1) := by
  cases fuel with
  | zero => omega
  | succ n => simp [distLoop, if_pos hlt]

/-- All items before the last have size `chunkSize`, and the last item ends
exactly at `totalSize`, has size `min chunkSize (totalSize - offset)`, and
sits at an offset divisible by `chunkSize`. -/
theorem distLoop_sizes {chunkSize totalSize : Nat} (hc : 0 < chunkSize) :
    ∀ fuel offset, totalSize - offset ≤ fuel → chunkSize ∣ offset →
      (∀ it ∈ (distLoop chunkSize totalSize offset fuel).dropLast, it.size = chunkSize) ∧
      (∀ it, (distLoop chunkSize totalSize offset fuel).getLast? = some it →
        it.offset + it.size = totalSize ∧
        it.size = (if totalSize - it.offset < chunkSize then totalSize - it.offset else chunkSize) ∧
        chunkSize ∣ it.offset) := by
  intro fuel
  induction fuel with
  | zero =>
    intro offset hf hdvd
    constructor
    · intro it hmem; simp [distLoop] at hmem
    · intro it hlast; simp [distLoop] at hlast
  | succ n ih =>
    intro offset hf hdvd
    by_cases hlt : offset < totalSize
    · rw [distLoop_cons hlt (Nat.succ_pos n)]
      simp only [Nat.succ_sub_one]
      by_cases hsmall : totalSize - offset < chunkSize
      · rw [if_pos hsmall]
        have hnil : distLoop chunkSize totalSize (offset + (totalSize - offset)) n = [] :=
          distLoop_eq_nil (by omega)
        rw [hnil]
        constructor
        · intro it hmem; simp at hmem
        · intro it hlast
          rw [List.getLast?_singleton, Option.some.injEq] at hlast
          subst hlast
          refine ⟨?_, ?_, ?_⟩
          · show offset + (totalSize - offset) = totalSize
            omega
          · show totalSize - offset =
              if totalSize - offset < chunkSize then totalSize - offset else chunkSize
            rw [if_pos hsmall]
          · exact hdvd
      · rw [if_neg hsmall]
        by_cases hend : totalSize ≤ offset + chunkSize
        · have hnil : distLoop chunkSize totalSize (offset + chunkSize) n = [] :=
            distLoop_eq_nil (by omega)
          rw [hnil]
          constructor
          · intro it hmem; simp at hmem
          · intro it hlast
            rw [List.getLast?_singleton, Option.some.injEq] at hlast
            subst hlast
            refine ⟨?_, ?_, ?_⟩
            · show offset + chunkSize = totalSize
              omega
            · show chunkSize =
                if totalSize - offset < chunkSize then totalSize - offset else chunkSize
              rw [if_neg hsmall]
            · exact hdvd
        · have hdvd2 : chunkSize ∣ offset + chunkSize := Dvd.dvd.add hdvd dvd_rfl
          have hrec := ih (offset + chunkSize) (by omega) hdvd2
          have hfuel : 0 < n := by omega
          rw [distLoop_cons (show offset + chunkSize < totalSize by omega) hfuel]
            at hrec ⊢
          constructor
          · intro it hmem
            rw [List.dropLast_cons₂] at hmem
            rcases List.mem_cons.mp hmem with rfl | hmem
            · rfl
            · exact hrec.1 it hmem
          · intro it hlast
            rw [List.getLast?_cons_cons] at hlast
            exact hrec.2 it hlast
    · rw [distLoop_eq_nil (by omega)]
      constructor
      · intro it hmem; simp at hmem
      · intro it hlast; simp at hlast

/-- Claim C2: for every `totalSize > 0` and `chunkSize > 0`, the work items
emitted by `distributeWork` (run to completion, no cancellation) have
strictly increasing offsets, pairwise-disjoint ranges whose union is
exactly `[0, totalSize)`, at least one item is emitted, every item except
possibly the last has length `chunkSize`, and the last item's length is
`totalSize % chunkSize` when that is nonzero, else `chunkSize`. -/
theorem dispatcher_partition (chunkSize totalSize : Nat)
    (hc : 0 < chunkSize) (ht : 0 < totalSize) :
    (distributeWork chunkSize totalSize).Chain' (fun a b => a.offset < b.offset) ∧
    (distributeWork chunkSize totalSize).Pairwise
      (fun a b => a.offset + a.size ≤ b.offset ∨ b.offset + b.size ≤ a.offset) ∧
    (∀ x, x < totalSize ↔ ∃ it ∈ distributeWork chunkSize totalSize,
      it.offset ≤ x ∧ x < it.offset + it.size) ∧
    distributeWork chunkSize totalSize ≠ [] ∧
    (∀ it ∈ (distributeWork chunkSize totalSize).dropLast, it.size = chunkSize) ∧
    (∀ it, (distributeWork chunkSize totalSize).getLast? = some it →
      it.size = if totalSize % chunkSize = 0 then chunkSize else totalSize % chunkSize) := by
  have hcons : consecutiveFrom (distributeWork chunkSize totalSize) 0 totalSize :=
    @distLoop_consecutive chunkSize totalSize hc totalSize 0 (by omega)
  have hsz := @distLoop_sizes chunkSize totalSize hc totalSize 0 (by omega)
    (dvd_zero chunkSize)
  refine ⟨consecutiveFrom_chain hcons,
    (consecutiveFrom_pairwise hcons).imp (fun h => Or.inl h), ?_, ?_, hsz.1, ?_⟩
  · intro x
    have h := consecutiveFrom_cover hcons x
    constructor
    · intro hx
      exact h.mp ⟨Nat.zero_le x, hx⟩
    · intro hx
      exact (h.mpr hx).2
  · unfold distributeWork
    rw [distLoop_cons ht ht]
    simp
  · intro it hlast
    obtain ⟨hend, hsizeEq, hdvd⟩ := hsz.2 it hlast
    have hmem : it ∈ distributeWork chunkSize totalSize :=
      List.mem_of_getLast?_eq_some hlast
    have hpos : 0 < it.size := consecutiveFrom_pos hcons it hmem
    have hszle : it.size ≤ chunkSize := by
      rw [hsizeEq]; split <;> omega
    obtain ⟨k, hk⟩ := hdvd
    have hmod : totalSize % chunkSize = it.size % chunkSize := by
      have heq : totalSize = chunkSize * k + it.size := by
        rw [← hend, hk]
      rw [heq, Nat.mul_add_mod]
    by_cases hlt2 : it.size < chunkSize
    · have h1 : totalSize % chunkSize = it.size := by
        rw [hmod, Nat.mod_eq_of_lt hlt2]
      rw [if_neg (by omega)]
      omega
    · have hsc : it.size = chunkSize := by omega
      have h0 : totalSize % chunkSize = 0 := by
        rw [hmod, hsc, Nat.mod_self]
      rw [if_pos h0]
      exact hsc

/-- Witness for `dispatcher_partition`: chunk size 4 and total size 10
produce a nonempty item list whose last item (offset 8) has the remainder
size prescribed by the claim. -/
theorem dispatcher_partition_witness :
    distributeWork 4 10 ≠ [] ∧
    (⟨8, 2⟩ : WorkItem).size = (if 10 % 4 = 0 then 4 else 10 % 4 : Nat) := by
  have h := dispatcher_partition 4 10 (by decide) (by decide)
  exact ⟨h.2.2.2.1, h.2.2.2.2.2 ⟨8, 2⟩ (by decide)⟩

/-! ## Pattern generators (`pkg/generator/generator.go`) -/

/-- `ZeroGenerator.Generate`: sets every byte of the buffer to zero. -/
def ZeroGenerate (buffer : List Byte) : List Byte :=
  buffer.map (fun _ => 0)

/-- `SequentialGenerator` carries the `uint8` cursor `counter`. -/
structure SequentialGenerator where
  counter : Nat
deriving DecidableEq, Repr

/-- The fill loop of `SequentialGenerator.Generate`: writes
`(startValue + i) % 256` into index `i = 0, 1, ...` of a buffer of the
given length (the recursion shifts the start value by one per index). -/
def seqFill (startValue : Nat) : Nat → List Byte
  | 0 => []
  | n + 1 => startValue % 256 :: seqFill (startValue + 1) n

/-- `SequentialGenerator.Generate` (`pkg/generator/generator.go` lines
41–51) on a buffer of length `bufLen`: reads the cursor, advances it by
`bufLen` modulo 256, and fills the buffer with the consecutive byte
values starting at the old cursor. -/
def SequentialGenerator.Generate (g : SequentialGenerator) (bufLen : Nat) :
    SequentialGenerator × List Byte :=
  (⟨(g.counter + bufLen) % 256⟩, seqFill g.counter bufLen)

/-- `MixedGenerator` carries the configured sub-run length, the current
phase (`isRandom`), and the position inside the current phase. -/
structure MixedGenerator where
  chunkSize : Nat
  isRandom : Bool
  currentPos : Nat
deriving DecidableEq, Repr

/-- `NewMixedGenerator`: defaults the sub-run length to 1024 when the
argument is not positive; starts in the random phase at position 0. -/
def NewMixedGenerator (chunkSize : Int) : MixedGenerator :=
  if chunkSize ≤ 0 then ⟨1024, true, 0⟩ else ⟨chunkSize.toNat, true, 0⟩

/-- The loop of `MixedGenerator.Generate`.  `rand` is the stream of bytes
produced by the crypto random source, consumed left to right; `randIdx`
counts how many random bytes were consumed so far.  Each iteration fills
`copySize = min (chunkSize - currentPos) remaining` bytes from the
current phase (random stream or zeros), advances the in-phase position,
and flips the phase when it completes.  `fuel` bounds the iterations; a
fuel equal to the buffer length suffices whenever `0 < chunkSize`. -/
def mixedLoop (rand : Nat → Byte) (chunkSize : Nat) :
    Nat → Bool → Nat → Nat → Nat → List Byte × Bool × Nat × Nat
  | 0, isRandom, currentPos, _, randIdx => ([], isRandom, currentPos, randIdx)
  | fuel + 1, isRandom, currentPos, remaining, randIdx =>
    if remaining = 0 then ([], isRandom, currentPos, randIdx)
    else
      let copySize := min (chunkSize - currentPos) remaining
      let seg := if isRandom then (List.range copySize).map (fun i => rand (randIdx + i))
        else List.replicate copySize 0
      let randIdx2 := if isRandom then randIdx + copySize else randIdx
      let pos2 := currentPos + copySize
      let next :=
        if chunkSize ≤ pos2 then
          mixedLoop rand chunkSize fuel (!isRandom) 0 (remaining - copySize) randIdx2
        else
          mixedLoop rand chunkSize fuel isRandom pos2 (remaining - copySize) randIdx2
      (seg ++ next.1, next.2)

/-- `MixedGenerator.Generate` (`pkg/generator/generator.go` lines 99–132)
on a buffer of length `bufLen`, drawing random bytes from `rand` starting
at stream position `randIdx`: returns the updated generator state, the
filled buffer, and the new stream position. -/
def MixedGenerator.Generate (g : MixedGenerator) (rand : Nat → Byte)
    (randIdx bufLen : Nat) : MixedGenerator × List Byte × Nat :=
  let r := mixedLoop rand g.chunkSize bufLen g.isRandom g.currentPos bufLen randIdx
  (⟨g.chunkSize, r.2.1, r.2.2.1⟩, r.1, r.2.2.2)

theorem seqFill_eq_map (startValue : Nat) :
    ∀ n, seqFill startValue n = (List.range n).map (fun i => (startValue + i) % 256) := by
  suffices h : ∀ n s, seqFill s n = (List.range n).map (fun i => (s + i) % 256) by
    intro n; exact h n startValue
  intro n
  induction n with
  | zero => intro s; rfl
  | succ m ih =>
    intro s
    rw [List.range_succ_eq_map]
    simp only [seqFill, List.map_cons, List.map_map, Nat.add_zero]
    congr 1
    rw [ih (s + 1)]
    congr 1
    funext i
    simp only [Function.comp_apply]
    congr 1
    omega

/-- Claim C8: a `Generate` call of the Sequential generator at cursor `c`
on a buffer of length `n` writes `(c + i) % 256` at every index `i`,
advances the cursor to `(c + n) % 256`, a following call continues the
byte stream, and cursor 254 with a 5-byte request yields
`[254, 255, 0, 1, 2]`. -/
theorem sequential_generate_spec (c n m : Nat) :
    (SequentialGenerator.Generate ⟨c⟩ n).2 =
        (List.range n).map (fun i => (c + i) % 256) ∧
    (SequentialGenerator.Generate ⟨c⟩ n).1 = ⟨(c + n) % 256⟩ ∧
    ((SequentialGenerator.Generate ⟨c⟩ n).1.Generate m).2 =
        (List.range m).map (fun i => (c + n + i) % 256) ∧
    (SequentialGenerator.Generate ⟨254⟩ 5).2 = [254, 255, 0, 1, 2] := by
  refine ⟨seqFill_eq_map c n, rfl, ?_, by decide⟩
  show seqFill ((c + n) % 256) m = _
  rw [seqFill_eq_map]
  congr 1
  funext i
  conv_rhs => rw [← Nat.mod_add_mod]

/-- Claim C9: the Mixed generator with sub-run length 10 in its initial
state fills a 30-byte buffer with the first ten random-stream bytes, ten
zeros, and the next ten random-stream bytes, consuming 20 random bytes,
ending in the zero phase at in-phase position 0; and each random segment
is not all zero whenever the corresponding random-stream bytes are not
all zero. -/
theorem mixedLoop_zero_rem (rand : Nat → Byte) (c fuel : Nat) (isR : Bool)
    (pos idx : Nat) : mixedLoop rand c fuel isR pos 0 idx = ([], isR, pos, idx) := by
  cases fuel <;> simp [mixedLoop]

theorem mixedLoop_step (rand : Nat → Byte) (c fuel : Nat) (isR : Bool)
    (pos rem idx : Nat) (h : rem ≠ 0) :
    mixedLoop rand c (fuel + 1) isR pos rem idx =
      (let copySize := min (c - pos) rem
       let seg := if isR then (List.range copySize).map (fun i => rand (idx + i))
         else List.replicate copySize 0
       let idx2 := if isR then idx + copySize else idx
       let next := if c ≤ pos + copySize then
           mixedLoop rand c fuel (!isR) 0 (rem - copySize) idx2
         else mixedLoop rand c fuel isR (pos + copySize) (rem - copySize) idx2
       (seg ++ next.1, next.2)) := by
  simp [mixedLoop, h]

theorem mixed_generate_10_30 (rand : Nat → Byte) :
    MixedGenerator.Generate (NewMixedGenerator 10) rand 0 30 =
      (⟨10, false, 0⟩,
        (List.range 10).map rand ++
          (List.replicate 10 (0 : Byte) ++ (List.range 10).map (fun i => rand (10 + i))),
        20) ∧
    ((∃ i, i < 10 ∧ rand i ≠ 0) →
      (List.range 10).map rand ≠ List.replicate 10 (0 : Byte)) ∧
    ((∃ i, i < 10 ∧ rand (10 + i) ≠ 0) →
      (List.range 10).map (fun i => rand (10 + i)) ≠ List.replicate 10 (0 : Byte)) := by
  have h4 : mixedLoop rand 10 27 false 0 0 20 = ([], false, 0, 20) :=
    mixedLoop_zero_rem rand 10 27 false 0 20
  have h3 : mixedLoop rand 10 28 true 0 10 10 =
      ((List.range 10).map (fun i => rand (10 + i)), false, 0, 20) := by
    rw [show (28 : Nat) = 27 + 1 from rfl,
      mixedLoop_step rand 10 27 true 0 10 10 (by norm_num)]
    norm_num [h4]
  have h2 : mixedLoop rand 10 29 false 0 20 10 =
      (List.replicate 10 (0 : Byte) ++ (List.range 10).map (fun i => rand (10 + i)),
        false, 0, 20) := by
    rw [show (29 : Nat) = 28 + 1 from rfl,
      mixedLoop_step rand 10 28 false 0 20 10 (by norm_num)]
    norm_num [h3]
  have h1 : mixedLoop rand 10 30 true 0 30 0 =
      ((List.range 10).map rand ++
        (List.replicate 10 (0 : Byte) ++ (List.range 10).map (fun i => rand (10 + i))),
        false, 0, 20) := by
    rw [show (30 : Nat) = 29 + 1 from rfl,
      mixedLoop_step rand 10 29 true 0 30 0 (by norm_num)]
    norm_num [h2]
  refine ⟨?_, ?_, ?_⟩
  · show (let r := mixedLoop rand 10 30 true 0 30 0
      ((⟨10, r.2.1, r.2.2.1⟩ : MixedGenerator), r.1, r.2.2.2)) = _
    rw [h1]
  · rintro ⟨i, hi, hne⟩ heq
    have hall := (List.eq_replicate_iff.mp heq).2
    exact hne (hall (rand i) (List.mem_map_of_mem rand (List.mem_range.mpr hi)))
  · rintro ⟨i, hi, hne⟩ heq
    have hall := (List.eq_replicate_iff.mp heq).2
    exact hne (hall (rand (10 + i))
      (List.mem_map_of_mem (fun i => rand (10 + i)) (List.mem_range.mpr hi)))

/-- Witness for `mixed_generate_10_30`: at the concrete random stream
`fun _ => 7` the equality and the non-zero-segment conclusions hold. -/
theorem mixed_generate_10_30_witness :
    MixedGenerator.Generate (NewMixedGenerator 10) (fun _ => 7) 0 30 =
      (⟨10, false, 0⟩,
        (List.range 10).map (fun _ => (7 : Byte)) ++
          (List.replicate 10 (0 : Byte) ++ (List.range 10).map (fun _ => (7 : Byte))),
        20) ∧
    (List.range 10).map (fun _ => (7 : Byte)) ≠ List.replicate 10 (0 : Byte) := by
  exact ⟨(mixed_generate_10_30 (fun _ => 7)).1,
    (mixed_generate_10_30 (fun _ => 7)).2.1 ⟨0, by norm_num, by norm_num⟩⟩

/-! ## Buffer pool, worker, result sink
(`internal/worker/pool.go`, `cmd/root.go`) -/

/-- `resultItem` from `internal/worker/pool.go`: a filled buffer paired
with its file offset. -/
structure ResultItem where
  buffer : List Byte
  offset : Nat
deriving DecidableEq, Repr

/-- The state shared by the worker pool: the configured chunk size, the
buffers currently idle in `sync.Pool` (`bufferPool`), the errors published
on `errorChan`, and whether the shared context has been cancelled. -/
structure PoolState where
  chunkSize : Nat
  buffers : List (List Byte)
  errors : List String
  cancelled : Bool
deriving DecidableEq, Repr

/-- `bufferPool.Get`: hands out an idle buffer if one is stored, otherwise
allocates a fresh zeroed buffer of the configured chunk size (the pool's
`New` function). -/
def poolGet (st : PoolState) : List Byte × PoolState :=
  match st.buffers with
  | [] => (List.replicate st.chunkSize 0, st)
  | b :: rest => (b, { st with buffers := rest })

/-- `bufferPool.Put`: stores the given buffer (exactly the slice value
passed in) back into the pool. -/
def poolPut (st : PoolState) (buffer : List Byte) : PoolState :=
  { st with buffers := buffer :: st.buffers }

/-- `WorkerPool.ReturnBuffer` (`internal/worker/pool.go` lines 157–160):
puts the buffer passed by the result consumer — the possibly sliced-down
view carried by the `resultItem` — into the pool. -/
def ReturnBuffer (st : PoolState) (buffer : List Byte) : PoolState :=
  poolPut st buffer

/-- One iteration of the `WorkerPool.worker` loop
(`internal/worker/pool.go` lines 96–122) on one work item: get a buffer
from the pool, slice it down when the item is shorter, run the
generator on the slice, and either publish the error (when the lifetime
is not yet cancelled), cancel, return the original buffer and exit
(`true` in the third component), or publish the filled buffer as a
result.  The generator is a function from the buffer contents to either
an error or the filled buffer.  When the lifetime is already cancelled,
the select racing the error send (resp. the result send) against
`ctx.Done()` is modelled as taking the `ctx.Done()` branch. -/
def workerStep (st : PoolState) (gen : List Byte → Except String (List Byte))
    (work : WorkItem) : PoolState × Option ResultItem × Bool :=
  let got := poolGet st
  let buffer := if work.size < got.1.length then got.1.take work.size else got.1
  match gen buffer with
  | .error err =>
      let st2 := if got.2.cancelled then got.2
        else { got.2 with errors := got.2.errors ++ [err] }
      (poolPut { st2 with cancelled := true } got.1, none, true)
  | .ok filled =>
      if got.2.cancelled then (poolPut got.2 got.1, none, true)
      else (got.2, some ⟨filled, work.offset⟩, false)

/-- The per-result work of the result sink in `runTrasher`
(`cmd/root.go` lines 149–161): after consuming a result it hands the
result's buffer back through `ReturnBuffer`. -/
def sinkRelease (st : PoolState) (r : ResultItem) : PoolState :=
  ReturnBuffer st r.buffer

/-- `ZeroGenerator.Generate` wrapped in the worker's fallible generator
type: it never fails. -/
def zeroGen : List Byte → Except String (List Byte) :=
  fun b => .ok (ZeroGenerate b)

theorem poolGet_chunkSize (st : PoolState) :
    (poolGet st).2.chunkSize = st.chunkSize := by
  rcases st with ⟨c, bufs, errs, cc⟩
  cases bufs <;> rfl

theorem poolGet_errors (st : PoolState) : (poolGet st).2.errors = st.errors := by
  rcases st with ⟨c, bufs, errs, cc⟩
  cases bufs <;> rfl

theorem poolGet_cancelled (st : PoolState) :
    (poolGet st).2.cancelled = st.cancelled := by
  rcases st with ⟨c, bufs, errs, cc⟩
  cases bufs <;> rfl

/-- Claim C1 is refuted by the code: after the worker slices a
full-capacity 4-byte buffer down to the 2 bytes of a final short work
item, the result sink's `ReturnBuffer` stores exactly the sliced view in
the pool (`Put(&buffer)` re-wraps the truncated slice), so the next
acquisition from the pool yields a buffer of length 2, not the configured
chunk length 4. -/
theorem returnBuffer_stores_sliced_buffer :
    (workerStep ⟨4, [], [], false⟩ zeroGen ⟨0, 2⟩).2.1 = some ⟨[0, 0], 0⟩ ∧
    (poolGet (sinkRelease (workerStep ⟨4, [], [], false⟩ zeroGen ⟨0, 2⟩).1
        ((workerStep ⟨4, [], [], false⟩ zeroGen ⟨0, 2⟩).2.1.getD ⟨[], 0⟩))).1.length = 2 ∧
    (2 : Nat) ≠ 4 := by
  decide

/-- Counterexample to claim C5 as stated: in a worker step under an
already-cancelled lifetime (where the Go select racing the error send
against `ctx.Done()` can take the `Done` branch), a generator error is
not published on the error channel — the channel stays empty — even
though the worker still cancels, returns the original buffer to the
pool, publishes no result, and exits. -/
theorem worker_error_dropped_when_cancelled :
    (workerStep ⟨4, [], [], true⟩ (fun _ => .error "boom") ⟨0, 2⟩).1.errors = [] ∧
    workerStep ⟨4, [], [], true⟩ (fun _ => .error "boom") ⟨0, 2⟩ =
      (⟨4, [[0, 0, 0, 0]], [], true⟩, none, true) := by
  decide

/-- Claim C5 (amended: for a worker step in a run whose shared lifetime
is not yet cancelled; under an already-cancelled lifetime the error may
be dropped, see `worker_error_dropped_when_cancelled`): when the
generator fails on the (possibly sliced) buffer, the worker appends the
error to the error channel, cancels the shared lifetime, returns the
original full buffer to the pool, publishes no result, and exits
without retrying. -/
theorem worker_generator_failure (st : PoolState)
    (gen : List Byte → Except String (List Byte)) (work : WorkItem) (e : String)
    (hc : st.cancelled = false)
    (hg : gen (if work.size < (poolGet st).1.length then
        (poolGet st).1.take work.size else (poolGet st).1) = .error e) :
    workerStep st gen work =
      ({ chunkSize := st.chunkSize,
         buffers := (poolGet st).1 :: (poolGet st).2.buffers,
         errors := st.errors ++ [e],
         cancelled := true }, none, true) := by
  simp only [workerStep]
  rw [hg]
  simp only [poolGet_cancelled, hc, poolPut, poolGet_errors, poolGet_chunkSize]
  rfl

/-- Witness for `worker_generator_failure` at a concrete pool state and
failing generator. -/
theorem worker_generator_failure_witness :
    workerStep ⟨4, [], [], false⟩ (fun _ => .error "boom") ⟨0, 2⟩ =
      (⟨4, [[0, 0, 0, 0]], ["boom"], true⟩, none, true) := by
  have h := worker_generator_failure ⟨4, [], [], false⟩
    (fun _ => .error "boom") ⟨0, 2⟩ "boom" rfl rfl
  exact h.trans (by decide)

/-! ## File writer (`internal/writer/filewriter.go`) -/

/-- The state of a `FileWriter`: whether the file handle is still open
(`file != nil`), the current file contents (pre-allocated to `totalSize`
bytes by `NewFileWriter`), the `written` counter, and the target size.
Offsets and sizes are `int64` in Go, modelled as `Int`. -/
structure FileWriter where
  isOpen : Bool
  contents : List Byte
  written : Int
  totalSize : Int
deriving DecidableEq, Repr

/-- Overwriting `data` into `contents` starting at (nonnegative) offset
`o`: the effect of the seek-then-write performed by `WriteAt`. -/
def overwriteAt (contents : List Byte) (o : Nat) (data : List Byte) : List Byte :=
  contents.take o ++ data ++ contents.drop (o + data.length)

/-- `FileWriter.WriteAt` (`internal/writer/filewriter.go` lines 136–173):
returns immediately on empty data; then fails if the writer is closed,
the offset is negative, or the write would exceed the file size; then
performs the write and advances `written` by the data length.  The
operating-system seek/write failures and short writes have no
counterpart in this model, so the write itself always succeeds. -/
def FileWriter.WriteAt (w : FileWriter) (data : List Byte) (offset : Int) :
    Except String FileWriter :=
  if data.length = 0 then .ok w
  else if w.isOpen = false then .error "file writer is closed"
  else if offset < 0 then .error "offset cannot be negative"
  else if w.totalSize < offset + data.length then .error "write would exceed file size"
  else .ok { w with
    contents := overwriteAt w.contents offset.toNat data,
    written := w.written + data.length }

/-- The observable state after a `WriteAt` call: the updated writer on
success, the untouched writer when an error was returned. -/
def runWriteAt (w : FileWriter) (data : List Byte) (offset : Int) : FileWriter :=
  match w.WriteAt data offset with
  | .ok w2 => w2
  | .error _ => w

/-- A sequence of `WriteAt` calls, each a data/offset pair, applied in
order. -/
def runWriteCalls (w : FileWriter) (calls : List (List Byte × Int)) : FileWriter :=
  calls.foldl (fun acc c => runWriteAt acc c.1 c.2) w

/-- The writer produced by `NewFileWriter` for a `size`-byte target: open,
pre-allocated contents, `written = 0`. -/
def newFileWriter (size : Nat) : FileWriter :=
  ⟨true, List.replicate size 0, 0, size⟩

/-- Claim C10: a `WriteAt` call with an empty data slice returns `nil`
and leaves the writer — contents and `written` counter alike — entirely
unchanged, for every writer state (closed ones included) and every
offset, negative and out-of-range ones included, because the empty-input
check precedes the closed-writer and bounds checks. -/
theorem writeAt_empty_data (w : FileWriter) (offset : Int) :
    w.WriteAt [] offset = .ok w := by
  simp [FileWriter.WriteAt]

/-- Counterexample to claim C4 as stated: a `WriteAt` call at the
negative offset `-1` — on an open, fresh 2-byte writer — returns `nil`
rather than an error when the data slice is empty, because the
empty-input check runs first. -/
theorem writeAt_negative_offset_no_error :
    (newFileWriter 2).WriteAt [] (-1) = .ok (newFileWriter 2) := by
  rfl

/-- The byte range a `WriteAt` call covers, as a finite set of `Int`
positions. -/
def callIvl (c : List Byte × Int) : Finset Int :=
  Finset.Ico c.2 (c.2 + c.1.length)

/-- Two calls cover disjoint byte ranges. -/
def disjointCalls (c1 c2 : List Byte × Int) : Prop :=
  c1.2 + c1.1.length ≤ c2.2 ∨ c2.2 + c2.1.length ≤ c1.2

instance : DecidableRel disjointCalls := fun c1 c2 =>
  inferInstanceAs (Decidable (_ ∨ _))

/-- The union of the byte ranges of a list of calls. -/
def callsUnion : List (List Byte × Int) → Finset Int
  | [] => ∅
  | c :: rest => callIvl c ∪ callsUnion rest

theorem mem_callsUnion {x : Int} :
    ∀ {l : List (List Byte × Int)}, x ∈ callsUnion l ↔ ∃ c ∈ l, x ∈ callIvl c := by
  intro l
  induction l with
  | nil => simp [callsUnion]
  | cons c rest ih => simp [callsUnion, ih]

theorem callIvl_disjoint {c1 c2 : List Byte × Int} (h : disjointCalls c1 c2) :
    Disjoint (callIvl c1) (callIvl c2) := by
  rw [Finset.disjoint_left]
  intro x hx1 hx2
  simp only [callIvl, Finset.mem_Ico] at hx1 hx2
  rcases h with h | h <;> omega

theorem card_callsUnion :
    ∀ {l : List (List Byte × Int)}, l.Pairwise disjointCalls →
      (callsUnion l).card = (l.map (fun c => c.1.length)).sum := by
  intro l
  induction l with
  | nil => intro _; simp [callsUnion]
  | cons c rest ih =>
    intro hp
    obtain ⟨hhead, htail⟩ := List.pairwise_cons.mp hp
    have hdisj : Disjoint (callIvl c) (callsUnion rest) := by
      rw [Finset.disjoint_left]
      intro x hx1 hx2
      obtain ⟨c2, hc2, hxc2⟩ := mem_callsUnion.mp hx2
      exact (Finset.disjoint_left.mp (callIvl_disjoint (hhead c2 hc2)) hx1) hxc2
    have hcard : (callIvl c).card = c.1.length := by
      rw [callIvl, Int.card_Ico]
      omega
    simp only [callsUnion, List.map_cons, List.sum_cons]
    rw [Finset.card_union_of_disjoint hdisj, hcard, ih htail]

theorem callsUnion_subset {T : Int} :
    ∀ {l : List (List Byte × Int)},
      (∀ c ∈ l, 0 ≤ c.2 ∧ c.2 + c.1.length ≤ T) →
      callsUnion l ⊆ Finset.Ico 0 T := by
  intro l
  induction l with
  | nil => intro _; simp [callsUnion]
  | cons c rest ih =>
    intro hin
    have hc := hin c (List.mem_cons_self _ _)
    refine Finset.union_subset ?_ (ih (fun c2 hc2 => hin c2 (List.mem_cons_of_mem _ hc2)))
    intro x hx
    simp only [callIvl, Finset.mem_Ico] at hx
    simp only [Finset.mem_Ico]
    omega

/-- The total number of bytes a list of calls carries. -/
def callLens (l : List (List Byte × Int)) : Nat :=
  (l.map (fun c => c.1.length)).sum

/-- Pairwise-disjoint byte ranges all inside `[0, T)` have total length at
most `T`. -/
theorem sum_disjoint_lengths_le {T : Int} (hT : 0 ≤ T)
    {l : List (List Byte × Int)} (hin : ∀ c ∈ l, 0 ≤ c.2 ∧ c.2 + c.1.length ≤ T)
    (hd : l.Pairwise disjointCalls) :
    (callLens l : Int) ≤ T := by
  have hsub := Finset.card_le_card (callsUnion_subset hin)
  rw [card_callsUnion hd, Int.card_Ico] at hsub
  rw [callLens]
  omega

theorem runWriteAt_ok {w : FileWriter} {data : List Byte} {offset : Int}
    (hopen : w.isOpen = true) (h0 : 0 ≤ offset)
    (hle : offset + data.length ≤ w.totalSize) :
    (runWriteAt w data offset).written = w.written + data.length ∧
    (runWriteAt w data offset).isOpen = true ∧
    (runWriteAt w data offset).totalSize = w.totalSize := by
  unfold runWriteAt FileWriter.WriteAt
  by_cases hd : data.length = 0
  · simp [hd, hopen]
  · simp [hd, hopen, not_lt.mpr h0, not_lt.mpr hle]

theorem runWriteCalls_written {calls : List (List Byte × Int)} :
    ∀ {w : FileWriter}, w.isOpen = true →
      (∀ c ∈ calls, 0 ≤ c.2 ∧ c.2 + c.1.length ≤ w.totalSize) →
      (runWriteCalls w calls).written = w.written + (callLens calls : Int) ∧
      (runWriteCalls w calls).isOpen = true ∧
      (runWriteCalls w calls).totalSize = w.totalSize := by
  induction calls with
  | nil =>
    intro w hopen _
    refine ⟨?_, hopen, rfl⟩
    simp [runWriteCalls, callLens]
  | cons c rest ih =>
    intro w hopen hin
    have hc := hin c (List.mem_cons_self _ _)
    have hstep := runWriteAt_ok hopen hc.1 hc.2
    have hrest := @ih (runWriteAt w c.1 c.2) hstep.2.1 (by
      intro c2 hc2
      have := hin c2 (List.mem_cons_of_mem _ hc2)
      rw [hstep.2.2]
      exact this)
    have hlens : callLens (c :: rest) = c.1.length + callLens rest := by
      simp [callLens]
    refine ⟨?_, ?_, ?_⟩
    · show (runWriteCalls (runWriteAt w c.1 c.2) rest).written = _
      rw [hrest.1, hstep.1, hlens]
      push_cast
      ring
    · exact hrest.2.1
    · show (runWriteCalls (runWriteAt w c.1 c.2) rest).totalSize = _
      rw [hrest.2.2, hstep.2.2]

theorem runWriteAt_mono (w : FileWriter) (data : List Byte) (offset : Int) :
    w.written ≤ (runWriteAt w data offset).written := by
  unfold runWriteAt FileWriter.WriteAt
  by_cases hd : data.length = 0
  · simp [hd]
  · by_cases ho : w.isOpen = false
    · simp [hd, ho]
    · by_cases hneg : offset < 0
      · simp [hd, ho, hneg]
      · by_cases hex : w.totalSize < offset + data.length
        · simp [hd, ho, hneg, hex]
        · simp only [hd, ho, hneg, hex, if_false, if_neg]
          simp

/-- Claim C4 (amended: the error conjunct holds for calls with a nonempty
data slice; an empty slice returns `nil` regardless of the offset, see
`writeAt_negative_offset_no_error`).  (1) a `WriteAt` call never
decreases `written`; (2) over any sequence of calls on a fresh writer
whose ranges are pairwise disjoint and contained in `[0, totalSize)`,
the final `written` never exceeds `TotalSize()`; (3) a successful call
advances `written` by exactly the data length, and `written` is
unchanged when an error is returned; (4) a call with nonempty data and a
negative offset, or a range extending past `totalSize`, returns an error
and leaves the writer unchanged. -/
theorem fileWriter_writeAt_spec :
    (∀ (w : FileWriter) (data : List Byte) (offset : Int),
      w.written ≤ (runWriteAt w data offset).written) ∧
    (∀ (T : Nat) (calls : List (List Byte × Int)),
      calls.Pairwise disjointCalls →
      (∀ c ∈ calls, 0 ≤ c.2 ∧ c.2 + c.1.length ≤ (T : Int)) →
      (runWriteCalls (newFileWriter T) calls).written ≤
        (runWriteCalls (newFileWriter T) calls).totalSize) ∧
    (∀ (w w2 : FileWriter) (data : List Byte) (offset : Int),
      w.WriteAt data offset = .ok w2 → w2.written = w.written + data.length) ∧
    (∀ (w : FileWriter) (data : List Byte) (offset : Int),
      data ≠ [] → (offset < 0 ∨ w.totalSize < offset + data.length) →
      (∃ e, w.WriteAt data offset = .error e) ∧ runWriteAt w data offset = w) := by
  refine ⟨runWriteAt_mono, ?_, ?_, ?_⟩
  · intro T calls hpair hin
    have hrun := @runWriteCalls_written calls (newFileWriter T) rfl hin
    rw [hrun.1, hrun.2.2]
    show (0 : Int) + (callLens calls : Int) ≤ (T : Int)
    have := sum_disjoint_lengths_le (by positivity) hin hpair
    omega
  · intro w w2 data offset hok
    unfold FileWriter.WriteAt at hok
    by_cases hd : data.length = 0
    · simp only [hd, if_pos rfl] at hok
      cases hok
      simp [hd]
    · by_cases ho : w.isOpen = false
      · simp [hd, ho] at hok
      · by_cases hneg : offset < 0
        · simp [hd, ho, hneg] at hok
        · by_cases hex : w.totalSize < offset + data.length
          · simp [hd, ho, hneg, hex] at hok
          · simp only [hd, ho, hneg, hex, if_false, if_neg] at hok
            simp at hok
            rw [← hok]
  · intro w data offset hne hbad
    have hd : ¬ data.length = 0 := by simpa using hne
    unfold runWriteAt FileWriter.WriteAt
    by_cases ho : w.isOpen = false
    · exact ⟨⟨"file writer is closed", by simp [hd, ho]⟩, by simp [hd, ho]⟩
    · rcases hbad with hbad | hbad
      · exact ⟨⟨"offset cannot be negative", by simp [hd, ho, hbad]⟩,
          by simp [hd, ho, hbad]⟩
      · by_cases hneg : offset < 0
        · exact ⟨⟨"offset cannot be negative", by simp [hd, ho, hneg]⟩,
            by simp [hd, ho, hneg]⟩
        · exact ⟨⟨"write would exceed file size", by simp [hd, ho, hneg, hbad]⟩,
            by simp [hd, ho, hneg, hbad]⟩

/-- Witness for `fileWriter_writeAt_spec`: a fresh 2-byte writer, the
disjoint in-bounds calls `[5]` at offset 0 and `[7]` at offset 1, a
successful single write, and a rejected nonempty write at offset `-1`. -/
theorem fileWriter_writeAt_spec_witness :
    (newFileWriter 2).written ≤ (runWriteAt (newFileWriter 2) [5] 0).written ∧
    (runWriteCalls (newFileWriter 2) [([5], 0), ([7], 1)]).written ≤
      (runWriteCalls (newFileWriter 2) [([5], 0), ([7], 1)]).totalSize ∧
    (⟨true, [5, 0], 1, 2⟩ : FileWriter).written =
      (newFileWriter 2).written + ([5] : List Byte).length ∧
    ((∃ e, (newFileWriter 2).WriteAt [5] (-1) = .error e) ∧
      runWriteAt (newFileWriter 2) [5] (-1) = newFileWriter 2) := by
  refine ⟨fileWriter_writeAt_spec.1 (newFileWriter 2) [5] 0, ?_, ?_, ?_⟩
  · refine fileWriter_writeAt_spec.2.1 2 [([5], 0), ([7], 1)] ?_ ?_
    · decide
    · decide
  · exact fileWriter_writeAt_spec.2.2.1 (newFileWriter 2) ⟨true, [5, 0], 1, 2⟩ [5] 0 (by rfl)
  · exact fileWriter_writeAt_spec.2.2.2 (newFileWriter 2) [5] (-1) (by decide) (by decide)

/-! ## Shutdown coordinator (`internal/signal/handler.go`) -/

/-- A registered cleanup function, modelled by an identifier and the
error it returns (`none` when it succeeds). -/
abbrev CleanupFn := Nat × Option String

/-- The state of a `ShutdownHandler` with no writer or progress reporter
registered: the context-cancelled flag, the `isShutdown` flag, whether
`shutdownOnce` has been consumed, the registered cleanup functions, the
cleanup functions invoked so far (by identifier, in invocation order),
and the lines printed to the output.  `onceBodyRuns` instruments how many
times the body of `shutdownOnce.Do` has executed. -/
structure ShutdownHandler where
  cancelled : Bool
  isShutdown : Bool
  shutdownOnceDone : Bool
  onceBodyRuns : Nat
  cleanupFns : List CleanupFn
  ran : List Nat
  output : List String
deriving DecidableEq, Repr

/-- `NewShutdownHandler`: all flags clear, nothing registered. -/
def NewShutdownHandler : ShutdownHandler :=
  ⟨false, false, false, 0, [], [], []⟩

/-- `ShutdownHandler.RegisterCleanupFunc` (`internal/signal/handler.go`
lines 64–68): appends the function to the registration list. -/
def RegisterCleanupFunc (h : ShutdownHandler) (fn : CleanupFn) : ShutdownHandler :=
  { h with cleanupFns := h.cleanupFns ++ [fn] }

/-- The warning line printed when a cleanup function returns an error
(nothing when it succeeds). -/
def reportCleanupErr (fn : CleanupFn) : List String :=
  match fn.2 with
  | some e => ["Warning: cleanup error: " ++ e]
  | none => []

/-- The downward index loop of `performCleanup`
(`for i := len(h.cleanupFns) - 1; i >= 0; i--`): invoking it with
`k = fns.length` runs indices `k - 1, k - 2, ..., 0` in that order,
collecting the invoked identifiers and the printed warnings. -/
def cleanupLoop (fns : List CleanupFn) : Nat → List Nat × List String
  | 0 => ([], [])
  | k + 1 =>
      let fn := fns.getD k (0, none)
      let rest := cleanupLoop fns k
      (fn.1 :: rest.1, reportCleanupErr fn ++ rest.2)

/-- `ShutdownHandler.performCleanup` (`internal/signal/handler.go` lines
107–133) for a handler with no writer and no progress reporter set: when
any cleanup functions are registered, run them all in the downward index
loop, printing a warning (not raising) for each error, between the
framing output lines. -/
def performCleanup (h : ShutdownHandler) : ShutdownHandler :=
  if 0 < h.cleanupFns.length then
    { h with
      ran := h.ran ++ (cleanupLoop h.cleanupFns h.cleanupFns.length).1,
      output := h.output ++ ["Cleaning up resources..."] ++
        (cleanupLoop h.cleanupFns h.cleanupFns.length).2 ++ ["Cleanup completed."] }
  else h

/-- `ShutdownHandler.initiateShutdown` (`internal/signal/handler.go`
lines 92–104): under `shutdownOnce.Do`, set `isShutdown`, cancel the
shared context, and perform cleanup; a no-op when the once was already
consumed. -/
def initiateShutdown (h : ShutdownHandler) : ShutdownHandler :=
  if h.shutdownOnceDone then h
  else performCleanup { h with
    shutdownOnceDone := true,
    onceBodyRuns := h.onceBodyRuns + 1,
    isShutdown := true,
    cancelled := true }

/-- `ShutdownHandler.Stop` (`internal/signal/handler.go` lines 167–169):
manually triggers shutdown. -/
def ShutdownHandler.Stop (h : ShutdownHandler) : ShutdownHandler :=
  initiateShutdown h

theorem cleanupLoop_spec (fns : List CleanupFn) :
    ∀ k, k ≤ fns.length →
      cleanupLoop fns k = (((fns.take k).map Prod.fst).reverse,
        ((fns.take k).reverse.map reportCleanupErr).flatten) := by
  intro k
  induction k with
  | zero => intro _; simp [cleanupLoop]
  | succ m ih =>
    intro hk
    have hm := ih (by omega)
    have hget : fns[m]? = some (fns.getD m (0, none)) := by
      rw [List.getD_eq_getElem?_getD]
      rw [List.getElem?_eq_getElem (by omega)]
      rfl
    have htake : fns.take (m + 1) = fns.take m ++ [fns.getD m (0, none)] := by
      rw [List.take_succ, hget]
      rfl
    simp only [cleanupLoop, hm, htake]
    rw [Prod.mk.injEq]
    constructor
    · simp
    · simp

theorem performCleanup_ran (h : ShutdownHandler) :
    (performCleanup h).ran = h.ran ++ (h.cleanupFns.map Prod.fst).reverse := by
  unfold performCleanup
  by_cases hl : 0 < h.cleanupFns.length
  · rw [if_pos hl]
    rw [cleanupLoop_spec h.cleanupFns h.cleanupFns.length (le_refl _)]
    simp
  · rw [if_neg hl]
    have hnil : h.cleanupFns = [] := by
      cases hfns : h.cleanupFns with
      | nil => rfl
      | cons a l => rw [hfns] at hl; simp at hl
    rw [hnil]
    simp

theorem performCleanup_output (h : ShutdownHandler) {fn : CleanupFn}
    (hmem : fn ∈ h.cleanupFns) {e : String} (he : fn.2 = some e) :
    ("Warning: cleanup error: " ++ e) ∈ (performCleanup h).output := by
  unfold performCleanup
  have hl : 0 < h.cleanupFns.length := List.length_pos.mpr (by
    intro hnil
    rw [hnil] at hmem
    cases hmem)
  rw [if_pos hl]
  rw [cleanupLoop_spec h.cleanupFns h.cleanupFns.length (le_refl _)]
  simp only [List.take_length]
  have hrep : ("Warning: cleanup error: " ++ e) ∈ reportCleanupErr fn := by
    rw [reportCleanupErr, he]
    exact List.mem_singleton.mpr rfl
  have hjoin : ("Warning: cleanup error: " ++ e) ∈
      (h.cleanupFns.reverse.map reportCleanupErr).flatten :=
    List.mem_flatten.mpr ⟨reportCleanupErr fn,
      List.mem_map_of_mem _ (List.mem_reverse.mpr hmem), hrep⟩
  simp only [List.mem_append]
  tauto

theorem performCleanup_shutdownOnceDone (h : ShutdownHandler) :
    (performCleanup h).shutdownOnceDone = h.shutdownOnceDone := by
  unfold performCleanup
  split <;> rfl

theorem performCleanup_onceBodyRuns (h : ShutdownHandler) :
    (performCleanup h).onceBodyRuns = h.onceBodyRuns := by
  unfold performCleanup
  split <;> rfl

theorem performCleanup_isShutdown (h : ShutdownHandler) :
    (performCleanup h).isShutdown = h.isShutdown := by
  unfold performCleanup
  split <;> rfl

theorem stop_shutdownOnceDone (h : ShutdownHandler) :
    (ShutdownHandler.Stop h).shutdownOnceDone = true := by
  unfold ShutdownHandler.Stop initiateShutdown
  by_cases hd : h.shutdownOnceDone
  · rw [if_pos hd]
    exact hd
  · rw [if_neg hd]
    rw [performCleanup_shutdownOnceDone]

theorem stop_of_done {h : ShutdownHandler} (hd : h.shutdownOnceDone = true) :
    ShutdownHandler.Stop h = h := by
  unfold ShutdownHandler.Stop initiateShutdown
  rw [if_pos hd]

theorem stop_stop (h : ShutdownHandler) :
    ShutdownHandler.Stop (ShutdownHandler.Stop h) = ShutdownHandler.Stop h :=
  stop_of_done (stop_shutdownOnceDone h)

/-- Claim C6: calling `Stop` once or any larger number of times produces
the same handler state; and from a handler whose once is not yet consumed
the `Running → ShuttingDown` transition body fires exactly once, leaving
`isShutdown` set and the registered cleanup functions executed exactly
once (in reverse registration order) — every call after the first is a
no-op. -/
theorem stop_idempotent (h : ShutdownHandler) (n : Nat) :
    ShutdownHandler.Stop^[n + 1] h = ShutdownHandler.Stop h ∧
    (h.shutdownOnceDone = false →
      (ShutdownHandler.Stop^[n + 1] h).onceBodyRuns = h.onceBodyRuns + 1 ∧
      (ShutdownHandler.Stop^[n + 1] h).isShutdown = true ∧
      (ShutdownHandler.Stop^[n + 1] h).ran =
        h.ran ++ (h.cleanupFns.map Prod.fst).reverse) := by
  have hiter : ShutdownHandler.Stop^[n + 1] h = ShutdownHandler.Stop h := by
    induction n with
    | zero => rfl
    | succ m ih =>
      rw [Function.iterate_succ_apply', ih, stop_stop]
  refine ⟨hiter, ?_⟩
  intro hfresh
  rw [hiter]
  unfold ShutdownHandler.Stop initiateShutdown
  rw [if_neg (by rw [hfresh]; exact Bool.false_ne_true)]
  refine ⟨?_, ?_, ?_⟩
  · rw [performCleanup_onceBodyRuns]
  · rw [performCleanup_isShutdown]
  · rw [performCleanup_ran]

/-- Witness for `stop_idempotent`: a fresh handler with two registered
cleanup functions, stopped twice, runs its once body a single time and
its cleanups once in reverse registration order. -/
theorem stop_idempotent_witness :
    ShutdownHandler.Stop^[2]
        (⟨false, false, false, 0, [(1, none), (2, some "x")], [], []⟩ : ShutdownHandler) =
      ShutdownHandler.Stop
        (⟨false, false, false, 0, [(1, none), (2, some "x")], [], []⟩ : ShutdownHandler) ∧
    (ShutdownHandler.Stop^[2]
        (⟨false, false, false, 0, [(1, none), (2, some "x")], [], []⟩ :
          ShutdownHandler)).onceBodyRuns = 1 ∧
    (ShutdownHandler.Stop^[2]
        (⟨false, false, false, 0, [(1, none), (2, some "x")], [], []⟩ :
          ShutdownHandler)).ran = [2, 1] := by
  have h := stop_idempotent
    (⟨false, false, false, 0, [(1, none), (2, some "x")], [], []⟩ : ShutdownHandler) 1
  exact ⟨h.1, (h.2 rfl).1, ((h.2 rfl).2.2).trans (by decide)⟩

theorem foldl_register (fns : List CleanupFn) :
    ∀ h : ShutdownHandler,
      (fns.foldl RegisterCleanupFunc h).cleanupFns = h.cleanupFns ++ fns ∧
      (fns.foldl RegisterCleanupFunc h).ran = h.ran ∧
      (fns.foldl RegisterCleanupFunc h).output = h.output := by
  induction fns with
  | nil => intro h; simp
  | cons fn rest ih =>
    intro h
    have := ih (RegisterCleanupFunc h fn)
    simp only [List.foldl_cons]
    refine ⟨?_, this.2.1, this.2.2⟩
    rw [this.1]
    simp [RegisterCleanupFunc]

/-- Claim C7: after registering any sequence of cleanup functions, the
shutdown cleanup invokes every one of them in strict reverse-registration
(LIFO) order, and a cleanup error is printed as a warning on the output
rather than raised — the remaining cleanup functions still run, since the
invocation list always covers all registrations. -/
theorem cleanup_lifo_reports_errors (fns : List CleanupFn) :
    (performCleanup (fns.foldl RegisterCleanupFunc NewShutdownHandler)).ran =
      (fns.map Prod.fst).reverse ∧
    (∀ fn ∈ fns, ∀ e, fn.2 = some e →
      ("Warning: cleanup error: " ++ e) ∈
        (performCleanup (fns.foldl RegisterCleanupFunc NewShutdownHandler)).output) := by
  have hreg := foldl_register fns NewShutdownHandler
  constructor
  · rw [performCleanup_ran, hreg.1, hreg.2.1]
    simp [NewShutdownHandler]
  · intro fn hmem e he
    refine performCleanup_output _ ?_ he
    rw [hreg.1]
    simp [NewShutdownHandler, hmem]

/-- Witness for `cleanup_lifo_reports_errors`: three registrations, the
middle one failing. -/
theorem cleanup_lifo_reports_errors_witness :
    (performCleanup ([(1, none), (2, some "bad"), (3, none)].foldl
        RegisterCleanupFunc NewShutdownHandler)).ran = [3, 2, 1] ∧
    ("Warning: cleanup error: " ++ "bad") ∈
      (performCleanup ([(1, none), (2, some "bad"), (3, none)].foldl
        RegisterCleanupFunc NewShutdownHandler)).output := by
  have h := cleanup_lifo_reports_errors [(1, none), (2, some "bad"), (3, none)]
  exact ⟨h.1.trans (by decide), h.2 (2, some "bad") (by decide) "bad" rfl⟩

/-! ## Checksum accumulator (`internal/checksum`, modelled from the spec) -/

/-- Modelled from the spec: the `internal/checksum` package's accumulator
state is missing from the sources (only its caller `runTrasher` in
`cmd/root.go` is present).  Spec §4.4 requires the checksum to be
computed as if chunks were applied in offset order and prescribes
strategy (a): serialize per-chunk digests recorded with their offsets,
combined into an offset-indexed manifest.  The state is the list of
(offset, chunk bytes) records accumulated so far, in arrival order. -/
abbrev ChecksumState := List (Nat × List Byte)

/-- Modelled from the spec: the empty accumulator seeded at run start by
`NewChecksumGenerator`. -/
def checksumInit : ChecksumState := []

/-- Modelled from the spec: `UpdateWithChunk buffer offset` (called by the
Result Sink for each `ResultItem` in arrival order) records the chunk's
bytes keyed by its offset. -/
def UpdateWithChunk (st : ChecksumState) (buffer : List Byte) (offset : Nat) :
    ChecksumState :=
  (offset, buffer) :: st

/-- Ordering of manifest records by offset. -/
def chunkLE (a b : Nat × List Byte) : Prop := a.1 ≤ b.1

/-- Strict ordering of manifest records by offset. -/
def chunkLT (a b : Nat × List Byte) : Prop := a.1 < b.1

instance : DecidableRel chunkLE := fun a b => inferInstanceAs (Decidable (a.1 ≤ b.1))

instance : DecidableRel chunkLT := fun a b => inferInstanceAs (Decidable (a.1 < b.1))

instance : IsTotal (Nat × List Byte) chunkLE := ⟨fun a b => Nat.le_total a.1 b.1⟩

instance : IsTrans (Nat × List Byte) chunkLE := ⟨fun _ _ _ h1 h2 => le_trans h1 h2⟩

instance : IsAntisymm (Nat × List Byte) chunkLT :=
  ⟨fun a b h1 h2 => absurd (lt_trans h1 h2) (lt_irrefl a.1)⟩

/-- Modelled from the spec: finalization orders the recorded per-chunk
entries by offset and produces the byte sequence of the manifest — the
file's bytes in offset order; the run's digest is a function of exactly
this sequence. -/
def finalizeBytes (st : ChecksumState) : List Byte :=
  ((List.insertionSort chunkLE st).map Prod.snd).flatten

theorem foldl_update_eq (l : List (Nat × List Byte)) :
    ∀ st, l.foldl (fun st c => UpdateWithChunk st c.2 c.1) st = l.reverse ++ st := by
  induction l with
  | nil => intro st; rfl
  | cons c rest ih =>
    intro st
    rw [List.foldl_cons, ih, List.reverse_cons, List.append_assoc]
    rfl

/-- Claim C3 (against the spec-modelled accumulator): feeding the run's
chunks to `UpdateWithChunk` in any arrival order and finalizing yields
exactly the file's bytes in offset order — the offset-ordered
concatenation of the chunks — so any digest of the finalized manifest
equals the digest of the file's bytes taken in offset order, independent
of arrival order; no single running whole-file hash over arrival order is
involved. -/
theorem checksum_offset_order_independent
    (arrival canonical : List (Nat × List Byte))
    (hperm : arrival.Perm canonical)
    (hsorted : canonical.Pairwise chunkLT) :
    finalizeBytes (arrival.foldl (fun st c => UpdateWithChunk st c.2 c.1) checksumInit) =
      (canonical.map Prod.snd).flatten := by
  rw [foldl_update_eq arrival checksumInit]
  show ((List.insertionSort chunkLE (arrival.reverse ++ [])).map Prod.snd).flatten = _
  rw [List.append_nil]
  have hperm2 : List.Perm (List.insertionSort chunkLE arrival.reverse) canonical :=
    ((List.perm_insertionSort chunkLE arrival.reverse).trans
      arrival.reverse_perm).trans hperm
  have hne : canonical.Pairwise (fun a b => a.1 ≠ b.1) :=
    hsorted.imp (fun hab => Nat.ne_of_lt hab)
  have hne2 : (List.insertionSort chunkLE arrival.reverse).Pairwise
      (fun a b => a.1 ≠ b.1) :=
    (List.Perm.pairwise_iff (fun hab => (fun h => hab h.symm)) hperm2).mpr hne
  have hle : (List.insertionSort chunkLE arrival.reverse).Pairwise chunkLE :=
    List.sorted_insertionSort chunkLE arrival.reverse
  have hlt : (List.insertionSort chunkLE arrival.reverse).Pairwise chunkLT :=
    (hle.and hne2).imp (fun hab => lt_of_le_of_ne hab.1 hab.2)
  have heq : List.insertionSort chunkLE arrival.reverse = canonical :=
    List.eq_of_perm_of_sorted hperm2 hlt hsorted
  rw [heq]

/-- Witness for `checksum_offset_order_independent`: three chunks arriving
out of offset order assemble to the offset-ordered file bytes. -/
theorem checksum_offset_order_independent_witness :
    finalizeBytes ([((4 : Nat), [9, 9]), (0, [1, 2]), (2, [3, 4])].foldl
        (fun st c => UpdateWithChunk st c.2 c.1) checksumInit) = [1, 2, 3, 4, 9, 9] := by
  have h := checksum_offset_order_independent
    [(4, [9, 9]), (0, [1, 2]), (2, [3, 4])]
    [(0, [1, 2]), (2, [3, 4]), (4, [9, 9])]
    (by decide) (by decide)
  exact h.trans (by decide)

end Trasher
